import Mathlib

/-!
Verification of `LLM-batch-text-analyser`.

Shallow embedding of the three scripts of the repository:
  * `txt_to_md_claude.py` / `txt_to_md_gemini.py` — the Transform Runner
    (`process_all_files` with its per-file retry loop), modelled over an
    oracle that supplies the outcome of each external service call;
  * `pdf_to_txt_batch.py` — `clean_text`, `extract_pdf_text`,
    and the discovery / batching logic of `process_folder`.

Strings are modelled as `List Char`.  The Python regular-expression
substitutions of `clean_text` are rendered as explicit left-to-right,
non-overlapping scans, exactly mirroring `re.sub` semantics; the Python
character classes `\s`, `\d`, `\w` are modelled by their ASCII readings.
-/

/-! ### Python character classes and `str.strip` (shared helpers) -/

/-- Python's whitespace class as used by both `str.strip()` and the
regex class `\s` (ASCII reading). -/
def pySpace (c : Char) : Bool :=
  c = ' ' || c = '\t' || c = '\n' || c = '\r' || c = '\x0b' || c = '\x0c'

/-- Python regex `\d` (ASCII reading). -/
def pyDigit (c : Char) : Bool := c.isDigit

/-- Python regex `\w` (ASCII reading): alphanumeric or underscore. -/
def pyWord (c : Char) : Bool := c.isAlphanum || c = '_'

/-- Python `str.strip()`: drop leading and trailing whitespace. -/
def pyStrip (l : List Char) : List Char :=
  (l.dropWhile pySpace).rdropWhile pySpace

/-! ### Transform Runner (`txt_to_md_claude.py`, `process_all_files`)

The external service call (`process_file_with_claude`) is modelled by an
oracle giving, for each 0-based attempt index, the outcome of that call:
either the response text, or the exception raised by the `anthropic`
client.  `statusErr code` stands for an `anthropic.APIStatusError` that is
not a `RateLimitError` (the `except` clauses test `RateLimitError`
first), `otherErr` for any exception outside the three handled classes. -/

inductive ApiResult where
  | success (text : List Char)
  | rateLimitErr
  | statusErr (code : Nat)
  | connectionErr
  | otherErr
deriving DecidableEq

/-- Result of one unit's retry loop (lines 177–223 of
`txt_to_md_claude.py`): the response if the loop broke out with one,
the number of service calls issued, and the list of back-off sleep
durations (in order). `none` as response means an exception escaped the
loop (or `raise last_error` fired), which the outer handlers turn into a
`failed` count. -/
structure RetryResult where
  response : Option (List Char)
  calls : Nat
  waits : List Nat
deriving DecidableEq

/-- The retry loop `for attempt in range(max_retries)`.  `remaining` is
the number of loop iterations still to run (so the Python guard
`attempt < max_retries - 1` is `0 < remaining` after peeling the current
iteration); `attempt` is the current 0-based attempt index, so the sleep
`rate_limit_delay * (attempt + 1)` is taken verbatim from the source.
Connection errors back off with `10 * (attempt + 1)` as in the source. -/
def retryLoop (oracle : Nat → ApiResult) (rateDelay : Nat) :
    Nat → Nat → RetryResult
  | 0, _ => ⟨none, 0, []⟩
  | remaining + 1, attempt =>
    match oracle attempt with
    | .success t => ⟨some t, 1, []⟩
    | .rateLimitErr =>
      if remaining = 0 then ⟨none, 1, []⟩
      else
        let r := retryLoop oracle rateDelay remaining (attempt + 1)
        ⟨r.response, r.calls + 1, rateDelay * (attempt + 1) :: r.waits⟩
    | .statusErr code =>
      if code = 529 then
        if remaining = 0 then ⟨none, 1, []⟩
        else
          let r := retryLoop oracle rateDelay remaining (attempt + 1)
          ⟨r.response, r.calls + 1, rateDelay * (attempt + 1) :: r.waits⟩
      else ⟨none, 1, []⟩
    | .connectionErr =>
      if remaining = 0 then ⟨none, 1, []⟩
      else
        let r := retryLoop oracle rateDelay remaining (attempt + 1)
        ⟨r.response, r.calls + 1, 10 * (attempt + 1) :: r.waits⟩
    | .otherErr => ⟨none, 1, []⟩

/-- One input unit: `stem` is `txt_file.stem` (the filename without its
`.txt` extension), `content` is `txt_file.read_text(...)`. -/
structure TxtFile where
  stem : List Char
  content : List Char

/-- One written output file: its name and its full content
(`output_path.write_text(response)` is a whole-file write). -/
structure Artifact where
  name : List Char
  content : List Char

/-- The summary dict `results` of `process_all_files`. -/
structure Counters where
  processed : Nat
  failed : Nat
  skipped : Nat
  total : Nat

/-- The body of the per-file loop of `process_all_files`
(`txt_to_md_claude.py` lines 158–245): skip whitespace-only files,
otherwise run the retry loop; on a response write
`txt_file.stem + ".md"` and count `processed`, on an escaped exception
count `failed`.  Returns the updated counters, the artifact list with
any new write appended, and the number of service calls issued for this
file. -/
def stepFile (oracle : Nat → ApiResult) (maxRetries rateDelay : Nat)
    (f : TxtFile) (c : Counters) (arts : List Artifact) :
    Counters × List Artifact × Nat :=
  if pyStrip f.content = [] then
    ({c with skipped := c.skipped + 1}, arts, 0)
  else
    let r := retryLoop oracle rateDelay maxRetries 0
    match r.response with
    | some resp =>
      ({c with processed := c.processed + 1},
       arts ++ [⟨f.stem ++ ".md".data, resp⟩], r.calls)
    | none => ({c with failed := c.failed + 1}, arts, r.calls)

/-- The `for i, txt_file in enumerate(txt_files, 1)` loop; the oracle is
indexed by the (0-based) file position and by the attempt number. -/
def runFiles (oracle : Nat → Nat → ApiResult) (maxRetries rateDelay : Nat) :
    List TxtFile → Nat → Counters → List Artifact → Counters × List Artifact
  | [], _, c, arts => (c, arts)
  | f :: fs, i, c, arts =>
    let s := stepFile (oracle i) maxRetries rateDelay f c arts
    runFiles oracle maxRetries rateDelay fs (i + 1) s.1 s.2.1

/-- Embedding of `process_all_files`: the early return
`{"processed": 0, "failed": 0, "skipped": 0, "total": 0}` when no `.txt`
file is found, otherwise the per-file loop started from
`{"processed": 0, "failed": 0, "skipped": 0, "total": len(txt_files)}`. -/
def process_all_files (oracle : Nat → Nat → ApiResult)
    (maxRetries rateDelay : Nat) (txt_files : List TxtFile) :
    Counters × List Artifact :=
  if txt_files.isEmpty then (⟨0, 0, 0, 0⟩, [])
  else runFiles oracle maxRetries rateDelay txt_files 0
    ⟨0, 0, 0, txt_files.length⟩ []

/-- The exit convention of `main` (`txt_to_md_claude.py` lines 308–309):
`sys.exit(1)` when `results['failed'] > 0`, implicit exit 0 otherwise. -/
def mainExitCode (c : Counters) : Nat := if 0 < c.failed then 1 else 0

/-! ### Batch Assembler (`pdf_to_txt_batch.py`, `process_folder` lines 163–210)

`for batch_start in range(0, len(all_texts), batch_size):
   batch = all_texts[batch_start:batch_start + batch_size]`
For `1 ≤ batch_size` this is the contiguous chunking below (each step
takes the next `batch_size` elements and recurses on the rest). -/

def sliceBatches (batch_size : Nat) : List α → List (List α)
  | [] => []
  | x :: xs =>
    (x :: xs.take (batch_size - 1)) :: sliceBatches batch_size (xs.drop (batch_size - 1))
termination_by l => l.length
decreasing_by
  simp only [List.length_cons, List.length_drop]
  omega

/-! ### Source Enumerator (`pdf_to_txt_batch.py`, `process_folder` lines 103–112)

The four `glob` calls (`*.pdf`, `*.PDF`, `**/*.pdf`, `**/*.PDF`) are
modelled as four arbitrary lists of paths; a path is identified by an
abstract id (its full filesystem path) and carries its filename. -/

structure PdfPath where
  pathId : Nat
  name : List Char
deriving DecidableEq

/-- The `seen = set()` de-duplication loop: keep the first occurrence of
each path, in order. -/
def uniqueKeepFirst [DecidableEq α] (seen : List α) : List α → List α
  | [] => []
  | x :: xs =>
    if x ∈ seen then uniqueKeepFirst seen xs
    else x :: uniqueKeepFirst (x :: seen) xs

/-- The sort key `key=lambda x: x.name.lower()` (case-insensitive). -/
def nameKey (p : PdfPath) : List Char := p.name.map Char.toLower

/-- The sort order of `sorted(..., key=lambda x: x.name.lower())`:
lexicographic comparison of the lowercased filenames. -/
def nameLe (p q : PdfPath) : Prop := nameKey p ≤ nameKey q

instance : DecidableRel nameLe := fun p q =>
  inferInstanceAs (Decidable (nameKey p ≤ nameKey q))

/-- Lines 103–112 of `process_folder`: concatenate the four glob results,
de-duplicate keeping first-seen order, then sort case-insensitively by
filename. -/
def enumeratePdfs (l1 l2 l3 l4 : List PdfPath) : List PdfPath :=
  List.insertionSort nameLe (uniqueKeepFirst [] (l1 ++ l2 ++ l3 ++ l4))

/-! ### Extraction cleanup (`pdf_to_txt_batch.py`, `clean_text`)

`clean_text` is three `re.sub` passes followed by `str.strip()`.  Each
pass is written as the left-to-right, non-overlapping scan `re.sub`
performs: at each position try to match; on a match, emit the
replacement and resume scanning after the matched span; otherwise emit
one character and move on. -/

/-- Pass `re.sub(r'\n{3,}', '\n\n', text)`: a maximal run of three or more
newlines is replaced by exactly two. -/
def collapseNewlines : List Char → List Char
  | '\n' :: '\n' :: '\n' :: rest =>
    '\n' :: '\n' :: collapseNewlines (rest.dropWhile (fun x => x = '\n'))
  | c :: rest => c :: collapseNewlines rest
  | [] => []
termination_by l => l.length
decreasing_by
  · have := (List.dropWhile_suffix (l := rest) (fun x => x = '\n')).length_le
    simp only [List.length_cons]
    omega
  · simp [List.length_cons]

/-- Index of the last `'\n'` in a list, if any. -/
def lastNl : List Char → Option Nat
  | [] => none
  | c :: rest =>
    match lastNl rest with
    | some j => some (j + 1)
    | none => if c = '\n' then some 0 else none

/-- Matching of `\d+\s*\n` (the part of `r'\n\d+\s*\n'` after the leading
newline) at the start of `l`, under greedy-with-backtracking regex
semantics: one or more digits, then the longest whitespace run whose
next character is a newline, then that newline.  Returns the rest of
the input after the match. -/
def tryPageMatch (l : List Char) : Option (List Char) :=
  if l.takeWhile pyDigit = [] then none
  else
    match lastNl ((l.dropWhile pyDigit).takeWhile pySpace) with
    | none => none
    | some j => some ((l.dropWhile pyDigit).drop (j + 1))

/-- Pass `re.sub(r'\n\d+\s*\n', '\n', text)`: strip page-number-only lines.
The replacement `'\n'` is emitted and scanning resumes after the match
(the emitted newline is not rescanned, exactly as in `re.sub`). -/
def pageNumSub : List Char → List Char
  | [] => []
  | c :: rest =>
    if c = '\n' then
      match h : tryPageMatch rest with
      | some rest' => '\n' :: pageNumSub rest'
      | none => '\n' :: pageNumSub rest
    else c :: pageNumSub rest
termination_by l => l.length
decreasing_by
  · simp only [tryPageMatch] at h
    split at h
    · exact absurd h (by simp)
    · rename_i hds
      split at h
      · exact absurd h (by simp)
      · have hlen := congrArg List.length
          (List.takeWhile_append_dropWhile (p := pyDigit) (l := rest))
        have hpos : 0 < (rest.takeWhile pyDigit).length :=
          List.length_pos.mpr hds
        simp only [List.length_append] at hlen
        cases h
        simp only [List.length_cons, List.length_drop]
        omega
  · simp [List.length_cons]
  · simp [List.length_cons]

/-- Pass `re.sub(r'(\w)-\n(\w)', r'\1\2', text)`: rejoin a word split by an
end-of-line hyphen.  On a match the two word characters are emitted and
scanning resumes after the second one (so it cannot start a new match,
exactly as in `re.sub`). -/
def hyphenSub : List Char → List Char
  | a :: '-' :: '\n' :: b :: rest =>
    if pyWord a && pyWord b then a :: b :: hyphenSub rest
    else a :: hyphenSub ('-' :: '\n' :: b :: rest)
  | c :: rest => c :: hyphenSub rest
  | [] => []
termination_by l => l.length
decreasing_by
  · simp only [List.length_cons]; omega
  · simp only [List.length_cons]; omega
  · simp [List.length_cons]

/-- Embedding of `clean_text`: the three substitution passes in source order, then
`text.strip()`. -/
def clean_text (l : List Char) : List Char :=
  pyStrip (hyphenSub (pageNumSub (collapseNewlines l)))

/-! ### Unit Extractor (`pdf_to_txt_batch.py`, `extract_pdf_text`)

PyMuPDF is abstracted by a `PdfSource`: either the list of per-page
texts of an openable document, or the message of the exception raised
anywhere inside the `try` block. -/

inductive PdfSource where
  | ok (pages : List (List Char))
  | raises (msg : List Char)

/-- The `for page_num, page in enumerate(doc, 1)` loop: pages whose text
is non-blank contribute `f"[Page {page_num}]\n{page_text}"`. -/
def pageParts : Nat → List (List Char) → List (List Char)
  | _, [] => []
  | n, t :: ts =>
    if pyStrip t = [] then pageParts (n + 1) ts
    else ("[Page ".data ++ (toString n).data ++ "]\n".data ++ t) :: pageParts (n + 1) ts

/-- Embedding of `extract_pdf_text`: on success, `clean_text('\n\n'.join(text_parts))`;
on any exception, the string `f"ERROR extracting {pdf_path}: {str(e)}"`
is returned (never raised past this boundary). -/
def extract_pdf_text (path : List Char) : PdfSource → List Char
  | .ok pages => clean_text (List.intercalate "\n\n".data (pageParts 1 pages))
  | .raises msg => "ERROR extracting ".data ++ path ++ ": ".data ++ msg

/-- The status recorded in the manifest for one unit (`process_folder`
lines 132–136). -/
inductive ExtractStatus where
  | success
  | error
deriving DecidableEq

/-- The classifier `if text.startswith("ERROR")` of `process_folder`:
status is `error` or `success` purely by the string prefix test. -/
def statusOf (text : List Char) : ExtractStatus :=
  if "ERROR".data.isPrefixOf text then .error else .success

/-- The `all_texts` list of `process_folder`: exactly the units whose
extracted text does not start with `"ERROR"` are appended and later
batched. -/
def all_texts (texts : List (List Char)) : List (List Char) :=
  texts.filter (fun t => !("ERROR".data.isPrefixOf t))

/-- A run of three consecutive newlines occurs somewhere in `l` — the
pattern `\n{3,}` matches `l`.  `collapseNewlines` output never contains
one, which is the key invariant behind the idempotence analysis of
`clean_text`. -/
def hasTriple (l : List Char) : Prop :=
  ∃ a b, l = a ++ '\n' :: '\n' :: '\n' :: b

/-! ## Theorems -/

/-! ### Transform Runner lemmas -/

/-- Under an oracle that always reports the rate-limit class, the retry
loop started at `attempt` with `remaining` iterations left makes
`remaining` calls, produces no response, and sleeps
`rateDelay * (attempt + 1), rateDelay * (attempt + 2), …` between
consecutive attempts. -/
theorem retryLoop_const_rateLimit (oracle : Nat → ApiResult) (rateDelay : Nat)
    (hall : ∀ k, oracle k = .rateLimitErr) :
    ∀ remaining attempt, retryLoop oracle rateDelay remaining attempt =
      ⟨none, remaining,
        (List.range (remaining - 1)).map (fun j => rateDelay * (attempt + 1 + j))⟩ := by
  intro remaining
  induction remaining with
  | zero => intro attempt; simp [retryLoop]
  | succ m ih =>
    intro attempt
    rw [retryLoop, hall attempt]
    by_cases hm : m = 0
    · subst hm; simp
    · obtain ⟨m', rfl⟩ : ∃ m', m = m' + 1 := ⟨m - 1, by omega⟩
      simp only [if_neg hm, ih (attempt + 1), Nat.add_sub_cancel]
      have hmap : (List.range (m' + 1)).map (fun j => rateDelay * (attempt + 1 + j)) =
          rateDelay * (attempt + 1) ::
            (List.range m').map (fun j => rateDelay * (attempt + 1 + 1 + j)) := by
        rw [List.range_succ_eq_map, List.map_cons, List.map_map]
        refine congrArg₂ List.cons (by simp) (List.map_congr_left fun j _ => ?_)
        simp only [Function.comp_apply]
        exact congrArg (rateDelay * ·) (by omega)
      simp [hmap]

/-- Each iteration of the per-file loop increments exactly one of the
three counters and leaves `total` untouched. -/
theorem stepFile_sum (oracle : Nat → ApiResult) (maxRetries rateDelay : Nat)
    (f : TxtFile) (c : Counters) (arts : List Artifact) :
    (stepFile oracle maxRetries rateDelay f c arts).1.processed +
      (stepFile oracle maxRetries rateDelay f c arts).1.failed +
      (stepFile oracle maxRetries rateDelay f c arts).1.skipped =
      c.processed + c.failed + c.skipped + 1 ∧
    (stepFile oracle maxRetries rateDelay f c arts).1.total = c.total := by
  by_cases hs : pyStrip f.content = []
  · simp [stepFile, hs]; omega
  · cases hr : (retryLoop oracle rateDelay maxRetries 0).response with
    | none => simp [stepFile, hs, hr]; omega
    | some resp => simp [stepFile, hs, hr]; omega

/-- Counter bookkeeping across the whole file loop. -/
theorem runFiles_sum (oracle : Nat → Nat → ApiResult) (maxRetries rateDelay : Nat) :
    ∀ (fs : List TxtFile) (i : Nat) (c : Counters) (arts : List Artifact),
      (runFiles oracle maxRetries rateDelay fs i c arts).1.processed +
        (runFiles oracle maxRetries rateDelay fs i c arts).1.failed +
        (runFiles oracle maxRetries rateDelay fs i c arts).1.skipped =
        c.processed + c.failed + c.skipped + fs.length ∧
      (runFiles oracle maxRetries rateDelay fs i c arts).1.total = c.total := by
  intro fs
  induction fs with
  | nil => intro i c arts; simp [runFiles]
  | cons f fs ih =>
    intro i c arts
    have hstep := stepFile_sum (oracle i) maxRetries rateDelay f c arts
    have htail := ih (i + 1) (stepFile (oracle i) maxRetries rateDelay f c arts).1
      (stepFile (oracle i) maxRetries rateDelay f c arts).2.1
    simp only [runFiles, List.length_cons]
    omega

/-! ### Claim theorems for the Transform Runner -/

/-- Claim C1: for a unit whose service call succeeds on the first
attempt, the runner writes exactly one output artifact, named by the
unit's stem with the `.md` extension, whose content is exactly the
returned response text; `processed` increments by 1 while `failed` and
`skipped` (and `total`) are unchanged, and exactly one service call is
made. -/
theorem claim1_first_try_success (oracle : Nat → ApiResult)
    (maxRetries rateDelay : Nat) (f : TxtFile) (c : Counters)
    (arts : List Artifact) (t : List Char) (hm : 1 ≤ maxRetries)
    (hne : pyStrip f.content ≠ []) (hok : oracle 0 = .success t) :
    stepFile oracle maxRetries rateDelay f c arts =
      (⟨c.processed + 1, c.failed, c.skipped, c.total⟩,
       arts ++ [⟨f.stem ++ ".md".data, t⟩], 1) := by
  obtain ⟨m, rfl⟩ : ∃ m, maxRetries = m + 1 := ⟨maxRetries - 1, by omega⟩
  simp [stepFile, hne, retryLoop, hok]

theorem claim1_first_try_success_witness :
    stepFile (fun _ => ApiResult.success ['o', 'k']) 5 60 ⟨['a'], ['x']⟩
      ⟨2, 3, 4, 9⟩ [] =
      (⟨3, 3, 4, 9⟩, [⟨['a'] ++ ".md".data, ['o', 'k']⟩], 1) :=
  claim1_first_try_success _ 5 60 _ _ _ _ (by decide) (by decide) rfl

/-- Claim C2: for a unit whose service calls always return the
rate-limit class, the runner issues exactly `max_retries` calls, the
wait before retry number `k` is `rate_limit_delay * k` (so the waits
are strictly increasing for a positive base delay), the unit ends as
`failed` (with `processed`/`skipped` unchanged), and no output artifact
is written. -/
theorem claim2_rate_limited_to_failure (oracle : Nat → ApiResult)
    (maxRetries rateDelay : Nat) (f : TxtFile) (c : Counters)
    (arts : List Artifact) (hall : ∀ k, oracle k = .rateLimitErr)
    (hne : pyStrip f.content ≠ []) (hd : 0 < rateDelay) :
    stepFile oracle maxRetries rateDelay f c arts =
      (⟨c.processed, c.failed + 1, c.skipped, c.total⟩, arts, maxRetries) ∧
    (retryLoop oracle rateDelay maxRetries 0).calls = maxRetries ∧
    (retryLoop oracle rateDelay maxRetries 0).waits =
      (List.range (maxRetries - 1)).map (fun k => rateDelay * (k + 1)) ∧
    (retryLoop oracle rateDelay maxRetries 0).waits.Pairwise (· < ·) := by
  have h0 := retryLoop_const_rateLimit oracle rateDelay hall maxRetries 0
  have hw : (retryLoop oracle rateDelay maxRetries 0).waits =
      (List.range (maxRetries - 1)).map (fun k => rateDelay * (k + 1)) := by
    rw [h0]
    exact List.map_congr_left fun j _ => congrArg (rateDelay * ·) (by omega)
  refine ⟨?_, by rw [h0], hw, ?_⟩
  · simp [stepFile, hne, h0]
  · rw [hw]
    refine (List.pairwise_lt_range _).map _ fun a b hab => ?_
    exact mul_lt_mul_of_pos_left (by omega) hd

theorem claim2_rate_limited_to_failure_witness :
    stepFile (fun _ => ApiResult.rateLimitErr) 3 60 ⟨['a'], ['x']⟩
      ⟨0, 0, 0, 1⟩ [] = (⟨0, 1, 0, 1⟩, [], 3) ∧
    (retryLoop (fun _ => ApiResult.rateLimitErr) 60 3 0).calls = 3 ∧
    (retryLoop (fun _ => ApiResult.rateLimitErr) 60 3 0).waits =
      (List.range 2).map (fun k => 60 * (k + 1)) ∧
    (retryLoop (fun _ => ApiResult.rateLimitErr) 60 3 0).waits.Pairwise (· < ·) :=
  claim2_rate_limited_to_failure _ 3 60 _ _ _ (fun _ => rfl) (by decide) (by decide)

/-- Claim C5: the retry loop backs off and retries only for the
rate-limit class, the specific transient-overload status 529, and
connection-level failures; any other API status error, and any other
exception, moves the unit to fatal immediately — a single call, no
wait, no further attempts. -/
theorem claim5_retry_only_transient (oracle : Nat → ApiResult) (rateDelay : Nat) :
    (∀ remaining attempt s, s ≠ 529 → oracle attempt = .statusErr s →
      retryLoop oracle rateDelay (remaining + 1) attempt = ⟨none, 1, []⟩) ∧
    (∀ remaining attempt, oracle attempt = .otherErr →
      retryLoop oracle rateDelay (remaining + 1) attempt = ⟨none, 1, []⟩) ∧
    (∀ remaining attempt, oracle attempt = .rateLimitErr →
      retryLoop oracle rateDelay (remaining + 2) attempt =
        ⟨(retryLoop oracle rateDelay (remaining + 1) (attempt + 1)).response,
         (retryLoop oracle rateDelay (remaining + 1) (attempt + 1)).calls + 1,
         rateDelay * (attempt + 1) ::
           (retryLoop oracle rateDelay (remaining + 1) (attempt + 1)).waits⟩) ∧
    (∀ remaining attempt, oracle attempt = .statusErr 529 →
      retryLoop oracle rateDelay (remaining + 2) attempt =
        ⟨(retryLoop oracle rateDelay (remaining + 1) (attempt + 1)).response,
         (retryLoop oracle rateDelay (remaining + 1) (attempt + 1)).calls + 1,
         rateDelay * (attempt + 1) ::
           (retryLoop oracle rateDelay (remaining + 1) (attempt + 1)).waits⟩) ∧
    (∀ remaining attempt, oracle attempt = .connectionErr →
      retryLoop oracle rateDelay (remaining + 2) attempt =
        ⟨(retryLoop oracle rateDelay (remaining + 1) (attempt + 1)).response,
         (retryLoop oracle rateDelay (remaining + 1) (attempt + 1)).calls + 1,
         10 * (attempt + 1) ::
           (retryLoop oracle rateDelay (remaining + 1) (attempt + 1)).waits⟩) := by
  refine ⟨?_, ?_, ?_, ?_, ?_⟩
  · intro remaining attempt s hs ho
    rw [retryLoop, ho]; simp [hs]
  · intro remaining attempt ho
    rw [retryLoop, ho]
  · intro remaining attempt ho
    rw [show remaining + 2 = (remaining + 1) + 1 from rfl, retryLoop, ho]
    simp
  · intro remaining attempt ho
    rw [show remaining + 2 = (remaining + 1) + 1 from rfl, retryLoop, ho]
    simp
  · intro remaining attempt ho
    rw [show remaining + 2 = (remaining + 1) + 1 from rfl, retryLoop, ho]
    simp

theorem claim5_retry_only_transient_witness :
    retryLoop (fun _ => ApiResult.statusErr 500) 60 5 0 = ⟨none, 1, []⟩ :=
  (claim5_retry_only_transient (fun _ => ApiResult.statusErr 500) 60).1
    4 0 500 (by decide) rfl

/-- Claim C6: a unit that is empty after trimming whitespace is never
sent to the external service (zero calls), increments `skipped` by 1,
leaves `processed`, `failed` and `total` unchanged, and writes no
output artifact. -/
theorem claim6_blank_unit_skipped (oracle : Nat → ApiResult)
    (maxRetries rateDelay : Nat) (f : TxtFile) (c : Counters)
    (arts : List Artifact) (h : pyStrip f.content = []) :
    stepFile oracle maxRetries rateDelay f c arts =
      (⟨c.processed, c.failed, c.skipped + 1, c.total⟩, arts, 0) := by
  simp [stepFile, h]

theorem claim6_blank_unit_skipped_witness :
    stepFile (fun _ => ApiResult.otherErr) 5 60 ⟨['a'], [' ', '\n']⟩
      ⟨1, 2, 3, 7⟩ [] = (⟨1, 2, 4, 7⟩, [], 0) :=
  claim6_blank_unit_skipped _ 5 60 _ _ _ (by decide)

/-- Claim C8: at the end of a Transform Runner invocation the counters
satisfy `processed + failed + skipped = total`, and `total` is the
number of discovered input units — every loop iteration increments
exactly one of the three counters. -/
theorem claim8_counter_invariant (oracle : Nat → Nat → ApiResult)
    (maxRetries rateDelay : Nat) (files : List TxtFile) :
    (process_all_files oracle maxRetries rateDelay files).1.processed +
      (process_all_files oracle maxRetries rateDelay files).1.failed +
      (process_all_files oracle maxRetries rateDelay files).1.skipped =
      (process_all_files oracle maxRetries rateDelay files).1.total ∧
    (process_all_files oracle maxRetries rateDelay files).1.total = files.length := by
  by_cases h : files.isEmpty
  · rw [List.isEmpty_iff] at h
    subst h
    simp [process_all_files]
  · have h1 := runFiles_sum oracle maxRetries rateDelay files 0
      ⟨0, 0, 0, files.length⟩ []
    simp only [process_all_files, h, Bool.false_eq_true, if_false]
    dsimp only at h1
    omega

/-- Claim C9: when the input directory exists but holds no `.txt`
files, the run returns the all-zero counters (total 0) without error and
the process exit status is zero — the empty input is not a fatal
empty-corpus condition. -/
theorem claim9_no_txt_files (oracle : Nat → Nat → ApiResult)
    (maxRetries rateDelay : Nat) :
    process_all_files oracle maxRetries rateDelay [] = (⟨0, 0, 0, 0⟩, []) ∧
    mainExitCode (process_all_files oracle maxRetries rateDelay []).1 = 0 :=
  ⟨rfl, rfl⟩

/-! ### Batch Assembler lemmas and Claim C3 -/

/-- Concatenating the batches gives back the original ordered list:
batches are contiguous slices with no gaps and no overlaps. -/
theorem sliceBatches_flatten (B : Nat) : ∀ l : List α, (sliceBatches B l).flatten = l
  | [] => by simp [sliceBatches]
  | x :: xs => by
    rw [sliceBatches, List.flatten_cons,
      sliceBatches_flatten B (xs.drop (B - 1))]
    simp [List.take_append_drop]
termination_by l => l.length
decreasing_by
  simp only [List.length_cons, List.length_drop]
  omega

/-- The number of batches is `ceil (N / B)`. -/
theorem sliceBatches_length (B : Nat) (hB : 1 ≤ B) :
    ∀ l : List α, (sliceBatches B l).length = (l.length + B - 1) / B
  | [] => by
    rw [sliceBatches]
    simp [Nat.div_eq_of_lt (show B - 1 < B by omega)]
  | x :: xs => by
    rw [sliceBatches]
    simp only [List.length_cons]
    rw [sliceBatches_length B hB (xs.drop (B - 1))]
    simp only [List.length_drop]
    rcases le_or_lt (xs.length + 1) B with hle | hlt
    · have h1 : xs.length - (B - 1) = 0 := by omega
      have h2 : xs.length + 1 + B - 1 = xs.length + B := by omega
      rw [h1, h2, Nat.div_eq_of_lt (by omega), Nat.add_div_right _ (by omega),
        Nat.div_eq_of_lt (by omega)]
    · have h1 : xs.length - (B - 1) + B - 1 = xs.length := by omega
      have h2 : xs.length + 1 + B - 1 = xs.length + B := by omega
      rw [h1, h2, Nat.add_div_right _ (by omega)]
termination_by l => l.length
decreasing_by
  simp only [List.length_cons, List.length_drop]
  omega

/-- Every batch except possibly the last has exactly `B` elements. -/
theorem sliceBatches_dropLast_length (B : Nat) (hB : 1 ≤ B) :
    ∀ l : List α, ∀ b ∈ (sliceBatches B l).dropLast, b.length = B
  | [] => by simp [sliceBatches]
  | x :: xs => by
    rw [sliceBatches]
    cases h : sliceBatches B (xs.drop (B - 1)) with
    | nil => simp
    | cons c rest =>
      intro b hb
      rw [List.dropLast_cons₂] at hb
      have hdrop : xs.drop (B - 1) ≠ [] := by
        intro hnil
        rw [hnil, sliceBatches] at h
        exact List.noConfusion h
      rcases List.mem_cons.mp hb with rfl | hb'
      · have : B - 1 < xs.length := by
          by_contra hcon
          push_neg at hcon
          exact hdrop (List.drop_eq_nil_of_le hcon)
        simp only [List.length_cons, List.length_take]
        omega
      · have := sliceBatches_dropLast_length B hB (xs.drop (B - 1)) b
        rw [h] at this
        exact this hb'
termination_by l => l.length
decreasing_by
  simp only [List.length_cons, List.length_drop]
  omega

/-- Claim C3: for a list of `N` units and batch size `B ≥ 1`, the Batch
Assembler produces exactly `⌈N / B⌉` batches, every batch but possibly
the last has exactly `B` units, and concatenating the batches
reconstructs the original ordered unit sequence with no gaps or
overlaps (each batch being a contiguous slice of it). -/
theorem claim3_batch_partition {α : Type} (l : List α) (B : Nat) (hB : 1 ≤ B) :
    (sliceBatches B l).length = (l.length + B - 1) / B ∧
    (∀ b ∈ (sliceBatches B l).dropLast, b.length = B) ∧
    (sliceBatches B l).flatten = l :=
  ⟨sliceBatches_length B hB l, sliceBatches_dropLast_length B hB l,
   sliceBatches_flatten B l⟩

theorem claim3_batch_partition_witness :
    (sliceBatches 2 [0, 1, 2, 3, 4]).length = ([0, 1, 2, 3, 4].length + 2 - 1) / 2 ∧
    (∀ b ∈ (sliceBatches 2 [0, 1, 2, 3, 4]).dropLast, b.length = 2) ∧
    (sliceBatches 2 [0, 1, 2, 3, 4]).flatten = [0, 1, 2, 3, 4] :=
  claim3_batch_partition [0, 1, 2, 3, 4] 2 (by decide)

/-! ### Source Enumerator lemmas and Claim C7 -/

/-- The de-duplication loop produces a list without duplicates, none of
whose elements were already seen. -/
theorem uniqueKeepFirst_nodup [DecidableEq α] :
    ∀ (l seen : List α), (uniqueKeepFirst seen l).Nodup ∧
      ∀ x ∈ uniqueKeepFirst seen l, x ∉ seen := by
  intro l
  induction l with
  | nil => intro seen; simp [uniqueKeepFirst]
  | cons x xs ih =>
    intro seen
    rw [uniqueKeepFirst]
    by_cases hx : x ∈ seen
    · simpa [hx] using ih seen
    · simp only [hx, if_false]
      obtain ⟨hnodup, hseen⟩ := ih (x :: seen)
      refine ⟨List.nodup_cons.mpr ⟨fun hmem => ?_, hnodup⟩, ?_⟩
      · exact hseen x hmem (List.mem_cons_self x seen)
      · intro y hy
        rcases List.mem_cons.mp hy with rfl | hy'
        · exact hx
        · exact fun hys => hseen y hy' (List.mem_cons_of_mem x hys)

/-- Membership in the de-duplicated list: exactly the unseen elements of
the input, each once. -/
theorem uniqueKeepFirst_mem [DecidableEq α] :
    ∀ (l seen : List α) (x : α),
      x ∈ uniqueKeepFirst seen l ↔ x ∈ l ∧ x ∉ seen := by
  intro l
  induction l with
  | nil => intro seen x; simp [uniqueKeepFirst]
  | cons y ys ih =>
    intro seen x
    rw [uniqueKeepFirst]
    by_cases hy : y ∈ seen
    · rw [if_pos hy, ih seen x]
      constructor
      · rintro ⟨hxl, hxs⟩
        exact ⟨List.mem_cons_of_mem y hxl, hxs⟩
      · rintro ⟨hxl, hxs⟩
        rcases List.mem_cons.mp hxl with rfl | hxl'
        · exact absurd hy hxs
        · exact ⟨hxl', hxs⟩
    · rw [if_neg hy]
      constructor
      · intro hmem
        rcases List.mem_cons.mp hmem with rfl | hmem'
        · exact ⟨List.mem_cons_self x ys, hy⟩
        · obtain ⟨h1, h2⟩ := (ih (y :: seen) x).mp hmem'
          exact ⟨List.mem_cons_of_mem y h1,
            fun hs => h2 (List.mem_cons_of_mem y hs)⟩
      · rintro ⟨hxl, hxs⟩
        rcases List.mem_cons.mp hxl with rfl | hxl'
        · exact List.mem_cons_self x _
        · by_cases hxy : x = y
          · subst hxy; exact List.mem_cons_self x _
          · refine List.mem_cons_of_mem y ((ih (y :: seen) x).mpr ⟨hxl', ?_⟩)
            intro hmem
            rcases List.mem_cons.mp hmem with h | h
            · exact hxy h
            · exact hxs h

instance : IsTotal PdfPath nameLe :=
  ⟨fun p q => le_total (nameKey p) (nameKey q)⟩

instance : IsTrans PdfPath nameLe :=
  ⟨fun _ _ _ h1 h2 => le_trans h1 h2⟩

/-- Claim C7: the Source Enumerator returns a duplicate-free list,
sorted case-insensitively by filename, whose members are exactly the
paths produced by any of the four discovery patterns; a path discovered
by more than one pattern appears exactly once. -/
theorem claim7_enumerator (l1 l2 l3 l4 : List PdfPath) :
    (enumeratePdfs l1 l2 l3 l4).Nodup ∧
    List.Sorted nameLe (enumeratePdfs l1 l2 l3 l4) ∧
    (∀ p, p ∈ enumeratePdfs l1 l2 l3 l4 ↔ p ∈ l1 ++ l2 ++ l3 ++ l4) ∧
    (∀ p ∈ l1 ++ l2 ++ l3 ++ l4, (enumeratePdfs l1 l2 l3 l4).count p = 1) := by
  have hperm : List.Perm (enumeratePdfs l1 l2 l3 l4)
      (uniqueKeepFirst [] (l1 ++ l2 ++ l3 ++ l4)) :=
    List.perm_insertionSort nameLe _
  have hnodup : (enumeratePdfs l1 l2 l3 l4).Nodup :=
    hperm.nodup_iff.mpr (uniqueKeepFirst_nodup (l1 ++ l2 ++ l3 ++ l4) []).1
  have hmem : ∀ p, p ∈ enumeratePdfs l1 l2 l3 l4 ↔ p ∈ l1 ++ l2 ++ l3 ++ l4 := by
    intro p
    rw [hperm.mem_iff, uniqueKeepFirst_mem]
    simp
  refine ⟨hnodup, List.sorted_insertionSort nameLe _, hmem, fun p hp => ?_⟩
  exact List.count_eq_one_of_mem hnodup ((hmem p).mpr hp)

/-! ### Unit Extractor classification: Claim C10 -/

/-- Claim C10: the extractor records status `error` exactly when the
returned text starts with `"ERROR"`; an extraction exception never
raises past `extract_pdf_text` — it is returned as a text string, which
that prefix test then classifies as `error`; and the units admitted to
batching (`all_texts`) are exactly those classified `success`, so any
text beginning with `"ERROR"` is excluded from batching regardless of
how it arose. -/
theorem claim10_error_prefix_classification :
    (∀ t : List Char, statusOf t = .error ↔ "ERROR".data.isPrefixOf t) ∧
    (∀ path msg : List Char,
      statusOf (extract_pdf_text path (.raises msg)) = .error) ∧
    (∀ (texts : List (List Char)) (t : List Char),
      t ∈ all_texts texts ↔ t ∈ texts ∧ statusOf t = .success) := by
  have hpre : ∀ t, statusOf t = ExtractStatus.error ↔ "ERROR".data.isPrefixOf t := by
    intro t
    unfold statusOf
    by_cases h : "ERROR".data.isPrefixOf t
    · simp [h]
    · simp [h]
  have hsucc : ∀ t, statusOf t = ExtractStatus.success ↔
      ¬ "ERROR".data.isPrefixOf t = true := by
    intro t
    unfold statusOf
    by_cases h : "ERROR".data.isPrefixOf t
    · simp [h]
    · simp [h]
  refine ⟨hpre, ?_, ?_⟩
  · intro path msg
    rw [hpre, extract_pdf_text, List.isPrefixOf_iff_prefix]
    refine ⟨" extracting ".data ++ path ++ ": ".data ++ msg, ?_⟩
    rw [show ("ERROR extracting ".data : List Char) =
      "ERROR".data ++ " extracting ".data from rfl]
    simp [List.append_assoc]
  · intro texts t
    rw [all_texts, List.mem_filter, hsucc t]
    simp only [Bool.not_eq_true, Bool.not_eq_true']

/-! ### Extraction cleanup lemmas and Claim C4 -/

theorem collapseNewlines_triple (rest : List Char) :
    collapseNewlines ('\n' :: '\n' :: '\n' :: rest) =
      '\n' :: '\n' :: collapseNewlines (rest.dropWhile (fun x => x = '\n')) := by
  rw [collapseNewlines]

theorem collapseNewlines_cons (c : Char) (rest : List Char)
    (h : ∀ r : List Char, c = '\n' → rest = '\n' :: '\n' :: r → False) :
    collapseNewlines (c :: rest) = c :: collapseNewlines rest := by
  rw [collapseNewlines]
  exact h

theorem hasTriple_cons {x : Char} {xs : List Char} :
    hasTriple (x :: xs) ↔
      (∃ b, x :: xs = '\n' :: '\n' :: '\n' :: b) ∨ hasTriple xs := by
  constructor
  · rintro ⟨a, b, hab⟩
    cases a with
    | nil => exact Or.inl ⟨b, by simpa using hab⟩
    | cons y a' =>
      right
      injection hab with h1 h2
      exact ⟨a', b, h2⟩
  · rintro (⟨b, hb⟩ | ⟨a, b, hab⟩)
    · exact ⟨[], b, by simpa using hb⟩
    · exact ⟨x :: a, b, by simp [hab]⟩

theorem hasTriple_append_left (a : List Char) {b : List Char}
    (h : hasTriple b) : hasTriple (a ++ b) := by
  obtain ⟨u, v, rfl⟩ := h
  exact ⟨a ++ u, v, by simp⟩

theorem hasTriple_append_right {a : List Char} (b : List Char)
    (h : hasTriple a) : hasTriple (a ++ b) := by
  obtain ⟨u, v, rfl⟩ := h
  exact ⟨u, v ++ b, by simp⟩

theorem hasTriple_of_isInfix {a b : List Char} (hab : a <:+: b)
    (h : hasTriple a) : hasTriple b := by
  obtain ⟨s, t, rfl⟩ := hab
  have := hasTriple_append_left s (hasTriple_append_right t h)
  rwa [← List.append_assoc] at this

/-- Function `collapseNewlines` is the identity on texts with no triple-newline
run (no `\n{3,}` match means the substitution does nothing). -/
theorem collapseNewlines_eq_self : ∀ l : List Char,
    ¬ hasTriple l → collapseNewlines l = l := by
  intro l
  induction l using collapseNewlines.induct with
  | case1 rest ih =>
    intro h
    exact absurd ⟨[], rest, rfl⟩ h
  | case2 c rest hc ih =>
    intro h
    rw [collapseNewlines_cons c rest hc,
      ih fun ht => h (hasTriple_cons.mpr (Or.inr ht))]
  | case3 => intro _; rw [collapseNewlines]

/-- The head of `l.dropWhile p`, when it exists, does not satisfy `p`
(stated on a cons-shaped result). -/
theorem dropWhile_ne_cons_sat (p : Char → Bool) :
    ∀ (l : List Char) (x : Char) (xs : List Char),
      l.dropWhile p = x :: xs → p x = false := by
  intro l
  induction l with
  | nil => intro x xs h; exact absurd h (by simp)
  | cons y ys ih =>
    intro x xs h
    rw [List.dropWhile_cons] at h
    by_cases hy : p y
    · rw [if_pos hy] at h
      exact ih x xs h
    · rw [if_neg hy] at h
      injection h with h1 _
      rw [← h1]
      simpa using hy

/-- The structural invariant of `collapseNewlines`: its output contains
no triple-newline run, and it only starts with one (or two) newlines if
its input did. -/
theorem collapseNewlines_spec : ∀ l : List Char,
    ¬ hasTriple (collapseNewlines l) ∧
    ((∃ b, collapseNewlines l = '\n' :: b) → ∃ b, l = '\n' :: b) ∧
    ((∃ b, collapseNewlines l = '\n' :: '\n' :: b) →
      ∃ b, l = '\n' :: '\n' :: b) := by
  intro l
  induction l using collapseNewlines.induct with
  | case1 rest ih =>
    obtain ⟨ih1, ih2, ih3⟩ := ih
    rw [collapseNewlines_triple]
    refine ⟨?_, fun _ => ⟨'\n' :: '\n' :: rest, rfl⟩, fun _ => ⟨'\n' :: rest, rfl⟩⟩
    intro ht
    have hnostart : ∀ b, collapseNewlines (rest.dropWhile (fun x => x = '\n')) =
        '\n' :: b → False := by
      intro b hb
      obtain ⟨b', hb'⟩ := ih2 ⟨b, hb⟩
      have := dropWhile_ne_cons_sat (fun x => x = '\n') rest '\n' b' hb'
      simp at this
    rcases hasTriple_cons.mp ht with ⟨b, hb⟩ | ht2
    · injection hb with _ hb1
      injection hb1 with _ hb2
      exact hnostart b hb2
    · rcases hasTriple_cons.mp ht2 with ⟨b, hb⟩ | ht3
      · injection hb with _ hb1
        exact hnostart ('\n' :: b) hb1
      · exact ih1 ht3
  | case2 c rest hc ih =>
    obtain ⟨ih1, ih2, ih3⟩ := ih
    rw [collapseNewlines_cons c rest hc]
    by_cases hcn : c = '\n'
    · subst hcn
      have hrest2 : ¬ ∃ r, rest = '\n' :: '\n' :: r :=
        fun ⟨r, hr⟩ => hc r rfl hr
      refine ⟨?_, fun _ => ⟨rest, rfl⟩, ?_⟩
      · intro ht
        rcases hasTriple_cons.mp ht with ⟨b, hb⟩ | ht2
        · injection hb with _ h1
          exact hrest2 (ih3 ⟨b, h1⟩)
        · exact ih1 ht2
      · rintro ⟨b, hb⟩
        injection hb with _ h1
        obtain ⟨b', hb'⟩ := ih2 ⟨b, h1⟩
        exact ⟨b', by rw [hb']⟩
    · refine ⟨?_, ?_, ?_⟩
      · intro ht
        rcases hasTriple_cons.mp ht with ⟨b, hb⟩ | ht2
        · injection hb with h1 _
          exact hcn h1
        · exact ih1 ht2
      · rintro ⟨b, hb⟩
        injection hb with h1 _
        exact absurd h1 hcn
      · rintro ⟨b, hb⟩
        injection hb with h1 _
        exact absurd h1 hcn
  | case3 =>
    rw [collapseNewlines]
    refine ⟨?_, by rintro ⟨b, hb⟩; exact List.noConfusion hb,
      by rintro ⟨b, hb⟩; exact List.noConfusion hb⟩
    rintro ⟨a, b, hab⟩
    exact List.noConfusion (List.append_eq_nil.mp hab.symm).2

theorem hyphenSub_cons (c : Char) (rest : List Char)
    (h : ∀ (b : Char) (r : List Char), rest = '-' :: '\n' :: b :: r → False) :
    hyphenSub (c :: rest) = c :: hyphenSub rest := by
  rw [hyphenSub]
  exact h

/-- Function `hyphenSub` is the identity on texts with no hyphen-minus
(the pattern `(\w)-\n(\w)` cannot match). -/
theorem hyphenSub_eq_self : ∀ l : List Char, '-' ∉ l → hyphenSub l = l := by
  intro l
  induction l using hyphenSub.induct with
  | case1 a b rest hw ih =>
    intro h
    exact absurd (by simp : '-' ∈ a :: '-' :: '\n' :: b :: rest) h
  | case2 a b rest hw ih =>
    intro h
    exact absurd (by simp : '-' ∈ a :: '-' :: '\n' :: b :: rest) h
  | case3 c rest hex ih =>
    intro h
    rw [hyphenSub_cons c rest hex,
      ih fun hm => h (List.mem_cons_of_mem c hm)]
  | case4 => intro _; rw [hyphenSub]

/-- Without any digit in the input, `\n\d+\s*\n` cannot match. -/
theorem tryPageMatch_none_of_no_digit (l : List Char)
    (h : ∀ c ∈ l, pyDigit c = false) : tryPageMatch l = none := by
  have ht : l.takeWhile pyDigit = [] := by
    cases l with
    | nil => rfl
    | cons x xs =>
      rw [List.takeWhile_cons, h x (List.mem_cons_self x xs)]
      rfl
  rw [tryPageMatch, ht]
  simp

/-- Function `pageNumSub` is the identity on texts with no digit. -/
theorem pageNumSub_eq_self : ∀ l : List Char,
    (∀ c ∈ l, pyDigit c = false) → pageNumSub l = l := by
  intro l
  induction l using pageNumSub.induct with
  | case1 => intro _; rw [pageNumSub]
  | case2 rest rest' htry ih =>
    intro h
    have hnone : tryPageMatch rest = none :=
      tryPageMatch_none_of_no_digit rest fun c hc => h c (List.mem_cons_of_mem _ hc)
    rw [htry] at hnone
    exact Option.noConfusion hnone
  | case3 rest htry ih =>
    intro h
    rw [pageNumSub, htry]
    simp [ih fun c hc => h c (List.mem_cons_of_mem _ hc)]
  | case4 c rest hc ih =>
    intro h
    rw [pageNumSub]
    simp [hc, ih fun c' hc' => h c' (List.mem_cons_of_mem _ hc')]

/-- Every character of the collapsed text comes from the input or is a
newline (the replacement text). -/
theorem mem_collapseNewlines : ∀ l : List Char,
    ∀ c ∈ collapseNewlines l, c ∈ l ∨ c = '\n' := by
  intro l
  induction l using collapseNewlines.induct with
  | case1 rest ih =>
    intro c hc
    rw [collapseNewlines_triple] at hc
    rcases List.mem_cons.mp hc with rfl | hc1
    · exact Or.inr rfl
    rcases List.mem_cons.mp hc1 with rfl | hc2
    · exact Or.inr rfl
    rcases ih c hc2 with hmem | hnl
    · refine Or.inl ?_
      have : c ∈ rest := (List.dropWhile_suffix _).subset hmem
      simp [this]
    · exact Or.inr hnl
  | case2 c' rest hex ih =>
    intro c hc
    rw [collapseNewlines_cons c' rest hex] at hc
    rcases List.mem_cons.mp hc with rfl | hc1
    · exact Or.inl (List.mem_cons_self _ _)
    rcases ih c hc1 with hmem | hnl
    · exact Or.inl (List.mem_cons_of_mem _ hmem)
    · exact Or.inr hnl
  | case3 =>
    intro c hc
    rw [collapseNewlines] at hc
    exact absurd hc (List.not_mem_nil c)

/-- The stripped text is a contiguous piece of the original. -/
theorem pyStrip_isInfix (l : List Char) : pyStrip l <:+: l := by
  have hp := List.rdropWhile_prefix pySpace (l.dropWhile pySpace)
  have hs := List.dropWhile_suffix pySpace (l := l)
  exact hp.isInfix.trans hs.isInfix

/-- Python `str.strip()` is idempotent. -/
theorem pyStrip_idem (l : List Char) : pyStrip (pyStrip l) = pyStrip l := by
  unfold pyStrip
  have hd : List.dropWhile pySpace
      ((l.dropWhile pySpace).rdropWhile pySpace) =
      (l.dropWhile pySpace).rdropWhile pySpace := by
    rw [List.dropWhile_eq_self_iff]
    intro hl
    have hpre := List.rdropWhile_prefix pySpace (l.dropWhile pySpace)
    rw [List.IsPrefix.get_eq hpre hl]
    exact List.dropWhile_get_zero_not pySpace l _
  rw [hd, List.rdropWhile_idempotent]

/-- Claim C4 counterexample: the cleanup transformation is not
idempotent.  Chained end-of-line hyphens are rejoined one per
application (`re.sub` resumes scanning after each match), and stripping
one page-number-only line can expose an adjacent one. -/
theorem claim4_cleanup_not_idempotent_counterexample :
    clean_text (clean_text ['a', '-', '\n', 'b', '-', '\n', 'c']) ≠
      clean_text ['a', '-', '\n', 'b', '-', '\n', 'c'] ∧
    clean_text (clean_text ['a', '\n', '1', '\n', '2', '\n', 'b']) ≠
      clean_text ['a', '\n', '1', '\n', '2', '\n', 'b'] := by
  have h1 : clean_text ['a', '-', '\n', 'b', '-', '\n', 'c'] =
      ['a', 'b', '-', '\n', 'c'] := by
    simp [clean_text, hyphenSub, pageNumSub, collapseNewlines, tryPageMatch,
      lastNl, pyStrip, pyWord, pyDigit, pySpace, List.rdropWhile]
  have h2 : clean_text ['a', 'b', '-', '\n', 'c'] = ['a', 'b', 'c'] := by
    simp [clean_text, hyphenSub, pageNumSub, collapseNewlines, tryPageMatch,
      lastNl, pyStrip, pyWord, pyDigit, pySpace, List.rdropWhile]
  have h3 : clean_text ['a', '\n', '1', '\n', '2', '\n', 'b'] =
      ['a', '\n', '2', '\n', 'b'] := by
    simp [clean_text, hyphenSub, pageNumSub, collapseNewlines, tryPageMatch,
      lastNl, pyStrip, pyWord, pyDigit, pySpace, List.rdropWhile]
  have h4 : clean_text ['a', '\n', '2', '\n', 'b'] = ['a', '\n', 'b'] := by
    simp [clean_text, hyphenSub, pageNumSub, collapseNewlines, tryPageMatch,
      lastNl, pyStrip, pyWord, pyDigit, pySpace, List.rdropWhile]
  refine ⟨?_, ?_⟩
  · rw [h1, h2]
    decide
  · rw [h3, h4]
    decide

/-- Claim C4 (amended): applying the cleanup twice equals applying it
once for every text containing no hyphen-minus and no digit — on such
texts the hyphenation and page-number substitutions cannot match, and
blank-line collapsing followed by trimming is idempotent.  (The
unrestricted claim is refuted by the counterexample.) -/
theorem claim4_cleanup_idempotent_amended (l : List Char)
    (hhyph : '-' ∉ l) (hdig : ∀ c ∈ l, pyDigit c = false) :
    clean_text (clean_text l) = clean_text l := by
  have hcol_dig : ∀ c ∈ collapseNewlines l, pyDigit c = false := by
    intro c hc
    rcases mem_collapseNewlines l c hc with h | rfl
    · exact hdig c h
    · decide
  have hcol_hyph : '-' ∉ collapseNewlines l := by
    intro hc
    rcases mem_collapseNewlines l '-' hc with h | h
    · exact hhyph h
    · exact absurd h (by decide)
  have h1 : pageNumSub (collapseNewlines l) = collapseNewlines l :=
    pageNumSub_eq_self _ hcol_dig
  have h2 : hyphenSub (collapseNewlines l) = collapseNewlines l :=
    hyphenSub_eq_self _ hcol_hyph
  have hclean : clean_text l = pyStrip (collapseNewlines l) := by
    rw [clean_text, h1, h2]
  have hminf : pyStrip (collapseNewlines l) <:+: collapseNewlines l :=
    pyStrip_isInfix _
  have hmdig : ∀ c ∈ pyStrip (collapseNewlines l), pyDigit c = false :=
    fun c hc => hcol_dig c (hminf.subset hc)
  have hmhyph : '-' ∉ pyStrip (collapseNewlines l) :=
    fun hc => hcol_hyph (hminf.subset hc)
  have hmnt : ¬ hasTriple (pyStrip (collapseNewlines l)) :=
    fun ht => (collapseNewlines_spec l).1 (hasTriple_of_isInfix hminf ht)
  have hcm : collapseNewlines (pyStrip (collapseNewlines l)) =
      pyStrip (collapseNewlines l) :=
    collapseNewlines_eq_self _ hmnt
  have h1' : pageNumSub (pyStrip (collapseNewlines l)) =
      pyStrip (collapseNewlines l) := pageNumSub_eq_self _ hmdig
  have h2' : hyphenSub (pyStrip (collapseNewlines l)) =
      pyStrip (collapseNewlines l) := hyphenSub_eq_self _ hmhyph
  rw [hclean, clean_text, hcm, h1', h2', pyStrip_idem]

theorem claim4_cleanup_idempotent_amended_witness :
    clean_text (clean_text ['h', 'i', '\n', '\n', '\n', 'x']) =
      clean_text ['h', 'i', '\n', '\n', '\n', 'x'] :=
  claim4_cleanup_idempotent_amended _ (by decide) (by decide)
